import Mathlib

/-!
Verification of the IPv4 fragmentation engine of
`ipv4_fragmentation_visualizer.py` (classes `IPv4Fragmenter` and the
simulation loop of `IPv4FragmentationApp`).

The Python code works on arbitrary-precision signed integers, so every
quantity is embedded as `Int`.  Python's floor division `//` is `Int.fdiv`
and Python's `%` is `Int.fmod`.  Exceptions (`raise ValueError`) are
embedded as `Except` error results; the distinct exception messages of the
source are mirrored by distinct constructors of the error types below.
-/

namespace IPv4

/-- Decidable equality of `Except` results, so concrete runs of the
embedded functions can be checked by `decide`. -/
instance {ε α : Type} [DecidableEq ε] [DecidableEq α] : DecidableEq (Except ε α) :=
  fun a b =>
    match a, b with
    | .error e, .error f =>
        if h : e = f then .isTrue (congrArg Except.error h)
        else .isFalse (fun hh => h (by cases hh; rfl))
    | .ok x, .ok y =>
        if h : x = y then .isTrue (congrArg Except.ok h)
        else .isFalse (fun hh => h (by cases hh; rfl))
    | .error _, .ok _ => .isFalse (fun hh => by cases hh)
    | .ok _, .error _ => .isFalse (fun hh => by cases hh)

/-- One fragment, mirroring the source tuples
`(fragment_id, data_length, fragment_offset, sequence_num)` produced by
`IPv4Fragmenter.fragment_packet` and threaded through
`IPv4FragmentationApp.simulate_fragmentation`. -/
structure Fragment where
  fragment_id : Int
  data_length : Int
  offset_units : Int
  seq : Int
deriving Repr, DecidableEq

/-- The distinct `ValueError` diagnostics raised by
`IPv4Fragmenter.fragment_packet`, one constructor per distinct message in
the source.  `outOfFuel` is an artifact of the fuelled embedding of the
source's `while` loop and is proved unreachable whenever the source loop
terminates. -/
inductive FragError where
  | negativeDataSize
  | noData
  | mtuTooSmallForMinData (mtu header_size : Int)
  | offsetOverflow (offset_units : Int)
  | outOfFuel
deriving Repr, DecidableEq

/-- The chunk taken by one iteration of the `fragment_packet` loop:
`frag_data = min(remaining_data, max_data)`, truncated to a multiple of 8
when the chunk is not final (`remaining_data > max_data`). -/
def chunkSize (max_data remaining_data : Int) : Int :=
  if max_data < remaining_data then ((min remaining_data max_data).fdiv 8) * 8
  else min remaining_data max_data

/-- The loop body of `IPv4Fragmenter.fragment_packet`
(`while remaining_data > 0: ...`), with an explicit fuel bounding the
number of iterations.  Each iteration takes the chunk
`chunkSize max_data remaining_data`, checks
`fragment_offset = current_offset // 8` against the 13-bit maximum 8191,
appends the fragment and advances the loop state. -/
def fragmentLoop (fragment_id max_data : Int) :
    Nat → Int → Int → Int → Except FragError (List Fragment)
  | 0, remaining_data, _, _ =>
      if 0 < remaining_data then .error .outOfFuel else .ok []
  | fuel + 1, remaining_data, current_offset, seq_num =>
      if 0 < remaining_data then
        if 8191 < current_offset.fdiv 8 then
          .error (.offsetOverflow (current_offset.fdiv 8))
        else
          match fragmentLoop fragment_id max_data fuel
              (remaining_data - chunkSize max_data remaining_data)
              (current_offset + chunkSize max_data remaining_data) (seq_num + 1) with
          | .error e => .error e
          | .ok rest =>
              .ok (⟨fragment_id, chunkSize max_data remaining_data,
                current_offset.fdiv 8, seq_num⟩ :: rest)
      else .ok []

/-- `IPv4Fragmenter.fragment_packet(data_size, offset, header_size, mtu,
fragment_id)`: the three guard checks in source order, then
`max_data = ((mtu - header_size) // 8) * 8` and the fragmentation loop.
The fuel `data_size.toNat` bounds the iteration count: each iteration
consumes at least one byte of `remaining_data` once the guards passed. -/
def fragment_packet (data_size offset header_size mtu fragment_id : Int) :
    Except FragError (List Fragment) :=
  if data_size < 0 then .error .negativeDataSize
  else if data_size = 0 then .error .noData
  else if mtu < header_size + 8 then .error (.mtuTooSmallForMinData mtu header_size)
  else
    fragmentLoop fragment_id (((mtu - header_size).fdiv 8) * 8) data_size.toNat
      data_size offset 1

/-- The sequence of `current_offset` values at which the source loop of
`fragment_packet` performs its offset check, i.e. the chunk boundaries the
loop actually reaches: the recursion mirrors `fragmentLoop` step for step
and stops (recording the offending boundary) where the loop raises. -/
def reachedChunkStarts (max_data : Int) : Nat → Int → Int → List Int
  | 0, _, _ => []
  | fuel + 1, remaining_data, current_offset =>
      if 0 < remaining_data then
        if 8191 < current_offset.fdiv 8 then [current_offset]
        else current_offset ::
          reachedChunkStarts max_data fuel
            (remaining_data - chunkSize max_data remaining_data)
            (current_offset + chunkSize max_data remaining_data)
      else []

/-- The chunk boundaries reached by a `fragment_packet` call: empty when a
guard fails (the loop is never entered), otherwise the boundaries reached
by the loop. -/
def chunkStartsReached (data_size offset header_size mtu : Int) : List Int :=
  if data_size < 0 then []
  else if data_size = 0 then []
  else if mtu < header_size + 8 then []
  else reachedChunkStarts (((mtu - header_size).fdiv 8) * 8) data_size.toNat data_size offset

/-- The validation bounds of the source's `AppConfig` dataclass. -/
def min_packet_size : Int := 20

/-- `AppConfig.max_packet_size`. -/
def max_packet_size : Int := 65535

/-- `AppConfig.min_header_size`. -/
def min_header_size : Int := 20

/-- `AppConfig.max_header_size`. -/
def max_header_size : Int := 60

/-- `AppConfig.min_mtu` (RFC 791 minimum). -/
def min_mtu : Int := 68

/-- `AppConfig.max_mtu`. -/
def max_mtu : Int := 65535

/-- The distinct `ValueError` diagnostics raised by
`IPv4Fragmenter.validate_fragmentation_inputs`, one constructor per
distinct raise site; the MTU errors carry the 1-indexed hop position
(`i+1` in the source's `enumerate` loop). -/
inductive ValidationError where
  | packetTooSmall
  | packetTooLarge
  | headerTooSmall
  | headerTooLarge
  | headerNotMultipleOf4
  | packetNotGreaterThanHeader
  | noDataBytes
  | emptyMtuPath
  | mtuBelowMinimum (hop : Int)
  | mtuAboveMaximum (hop : Int)
  | mtuTooSmallForHeader (hop : Int)
deriving Repr, DecidableEq

/-- The `for i, mtu in enumerate(mtu_path)` loop of
`validate_fragmentation_inputs`: three checks per hop in source order,
errors annotated with the 1-indexed hop `i + 1`. -/
def validateMtuPath (header_size : Int) : Int → List Int → Except ValidationError Unit
  | _, [] => .ok ()
  | i, mtu :: rest =>
      if mtu < min_mtu then .error (.mtuBelowMinimum (i + 1))
      else if max_mtu < mtu then .error (.mtuAboveMaximum (i + 1))
      else if mtu < header_size + 8 then .error (.mtuTooSmallForHeader (i + 1))
      else validateMtuPath header_size (i + 1) rest

/-- `IPv4Fragmenter.validate_fragmentation_inputs(packet_size, header_size,
mtu_path)`: every check in source order. -/
def validate_fragmentation_inputs (packet_size header_size : Int)
    (mtu_path : List Int) : Except ValidationError Unit :=
  if packet_size < min_packet_size then .error .packetTooSmall
  else if max_packet_size < packet_size then .error .packetTooLarge
  else if header_size < min_header_size then .error .headerTooSmall
  else if max_header_size < header_size then .error .headerTooLarge
  else if header_size.fmod 4 ≠ 0 then .error .headerNotMultipleOf4
  else if packet_size - header_size < 0 then .error .packetNotGreaterThanHeader
  else if packet_size - header_size = 0 then .error .noDataBytes
  else if mtu_path = [] then .error .emptyMtuPath
  else validateMtuPath header_size 0 mtu_path

/-- The per-fragment renumbering of
`IPv4FragmentationApp.simulate_fragmentation`: sub-fragment `idx` of a
split is appended with `new_seq = len(new_fragments) + 1`, where
`new_fragments` already holds `base` fragments; identifier, data length
and offset are preserved. -/
def renumberFrom (base : Int) : List Fragment → List Fragment
  | [] => []
  | f :: rest =>
      ⟨f.fragment_id, f.data_length, f.offset_units, base + 1⟩ ::
        renumberFrom (base + 1) rest

/-- The inner `for frag_id, data_len, offset, seq_num in fragments` loop of
one hop of `simulate_fragmentation`: a fragment that fits
(`data_len + header_size <= mtu`) is appended unchanged, otherwise
`fragment_packet` is invoked with `offset_bytes = offset * 8` and its
results are appended renumbered relative to the current position. -/
def hopStep (header_size mtu : Int) :
    List Fragment → List Fragment → Except FragError (List Fragment)
  | [], new_fragments => .ok new_fragments
  | f :: rest, new_fragments =>
      if f.data_length + header_size ≤ mtu then
        hopStep header_size mtu rest (new_fragments ++ [f])
      else
        match fragment_packet f.data_length (f.offset_units * 8) header_size mtu
            f.fragment_id with
        | .error e => .error e
        | .ok sub_fragments =>
            hopStep header_size mtu rest
              (new_fragments ++ renumberFrom (new_fragments.length : Int) sub_fragments)

/-- One recorded hop of `self.current_results['hops']`:
`{'hop_num': hop_idx + 1, 'mtu': mtu, 'fragments': [...]}`. -/
structure HopResult where
  hop_num : Int
  mtu : Int
  fragments : List Fragment
deriving Repr, DecidableEq

/-- The errors a simulation run can surface: an input-validation error or a
`ValueError` escaping a per-fragment `fragment_packet` call. -/
inductive SimError where
  | validation (e : ValidationError)
  | fragmentation (e : FragError)
deriving Repr, DecidableEq

/-- The `for hop_idx, mtu in enumerate(mtu_path)` loop of
`simulate_fragmentation`.  The hop list accumulated so far models the
caller-visible `self.current_results['hops']`; on an exception escaping a
per-fragment call, the error is returned together with the hops already
recorded at that moment (the state the caller would observe). -/
def runHops (header_size : Int) :
    List Int → Int → List Fragment → List HopResult →
    Except (SimError × List HopResult) (List HopResult)
  | [], _, _, hops => .ok hops
  | mtu :: rest, hop_idx, fragments, hops =>
      match hopStep header_size mtu fragments [] with
      | .error e => .error (.fragmentation e, hops)
      | .ok new_fragments =>
          runHops header_size rest (hop_idx + 1) new_fragments
            (hops ++ [⟨hop_idx + 1, mtu, new_fragments⟩])

/-- The `self.current_results` record built by `simulate_fragmentation`. -/
structure SimulationReport where
  fragment_id : Int
  original_packet_size : Int
  header_size : Int
  mtu_path : List Int
  hops : List HopResult
deriving Repr, DecidableEq

/-- `IPv4FragmentationApp.simulate_fragmentation`: validate the inputs,
start from the single initial fragment
`(fragment_id, packet_size - header_size, 0, 1)` and run every hop.  When
validation fails no hop has been recorded, so the error carries `[]`. -/
def simulate_fragmentation (packet_size header_size : Int) (mtu_path : List Int)
    (fragment_id : Int) : Except (SimError × List HopResult) SimulationReport :=
  match validate_fragmentation_inputs packet_size header_size mtu_path with
  | .error e => .error (.validation e, [])
  | .ok _ =>
      match runHops header_size mtu_path 0
          [⟨fragment_id, packet_size - header_size, 0, 1⟩] [] with
      | .error ep => .error ep
      | .ok hops => .ok ⟨fragment_id, packet_size, header_size, mtu_path, hops⟩

/-- The More-Fragments column of `IPv4FragmentationApp.create_hop_table`:
`mf_flag = idx < len(fragments) - 1` for the row at index `idx`. -/
def mfFlags (fragments : List Fragment) : List Bool :=
  (List.range fragments.length).map (fun idx => decide (idx < fragments.length - 1))

/-- `chainFrom p q l` states that the fragments of `l`, in order, exactly
tile the byte interval `[p, q)`: the first fragment starts at byte `p`
(its stored 8-byte-unit offset times 8 equals `p`), every fragment carries
a positive number of data bytes, and each fragment starts exactly where
the previous one ended, the last one ending at `q`. -/
def chainFrom : Int → Int → List Fragment → Prop
  | p, q, [] => p = q
  | p, q, f :: rest =>
      f.offset_units * 8 = p ∧ 0 < f.data_length ∧
        chainFrom (p + f.data_length) q rest

instance decChainFrom : (p q : Int) → (l : List Fragment) → Decidable (chainFrom p q l)
  | p, q, [] => by
      simp only [chainFrom]
      infer_instance
  | p, q, f :: rest => by
      simp only [chainFrom]
      have := decChainFrom (p + f.data_length) q rest
      infer_instance

/-- Every fragment of the list except the last carries a data length that
is a multiple of 8 bytes. -/
def alignedButLast : List Fragment → Prop
  | [] => True
  | [_] => True
  | f :: g :: rest => f.data_length.fmod 8 = 0 ∧ alignedButLast (g :: rest)

/-- Spec rule for one MTU: within `[68, 65535]` and workable for the
header (`mtu ≥ header_size + 8`). -/
def mtuRuleOk (hs m : Int) : Prop := 68 ≤ m ∧ m ≤ 65535 ∧ hs + 8 ≤ m

/-- The five validation rules, in the order the specification lists them:
packet bounds, header bounds and multiple-of-4, positive data size,
non-empty MTU path, per-MTU bounds. -/
def ruleHolds (ps hs : Int) (mp : List Int) : Nat → Prop
  | 0 => 20 ≤ ps ∧ ps ≤ 65535
  | 1 => 20 ≤ hs ∧ hs ≤ 60 ∧ hs.fmod 4 = 0
  | 2 => 0 < ps - hs
  | 3 => mp ≠ []
  | _ => ∀ m ∈ mp, mtuRuleOk hs m

/-- The rule each validation error reports a violation of. -/
def ruleIdx : ValidationError → Nat
  | .packetTooSmall => 0
  | .packetTooLarge => 0
  | .headerTooSmall => 1
  | .headerTooLarge => 1
  | .headerNotMultipleOf4 => 1
  | .packetNotGreaterThanHeader => 2
  | .noDataBytes => 2
  | .emptyMtuPath => 3
  | .mtuBelowMinimum _ => 4
  | .mtuAboveMaximum _ => 4
  | .mtuTooSmallForHeader _ => 4

/-- The 1-indexed hop position an MTU error is annotated with, if any. -/
def errHop : ValidationError → Option Int
  | .mtuBelowMinimum k => some k
  | .mtuAboveMaximum k => some k
  | .mtuTooSmallForHeader k => some k
  | _ => none

/-- "The first violated rule in listed order, annotated with the 1-indexed
hop position for MTU-path violations": every rule before the reported one
holds, the reported rule fails, and an MTU error points at the first
offending hop. -/
def firstErrorSound (ps hs : Int) (mp : List Int) (e : ValidationError) : Prop :=
  (∀ j, j < ruleIdx e → ruleHolds ps hs mp j) ∧
  ¬ ruleHolds ps hs mp (ruleIdx e) ∧
  ∀ k, errHop e = some k →
    ∃ i : Nat, ∃ m, mp.get? i = some m ∧ k = (i : Int) + 1 ∧ ¬ mtuRuleOk hs m ∧
      ∀ (j : Nat) (mj : Int), j < i → mp.get? j = some mj → mtuRuleOk hs mj

theorem fdiv_eq_ediv8 (a : Int) : a.fdiv 8 = a / 8 :=
  Int.fdiv_eq_ediv a (by norm_num)

theorem fmod_eq_emod8 (a : Int) : a.fmod 8 = a % 8 :=
  Int.fmod_eq_emod a (by norm_num)

theorem fmod_eq_emod4 (a : Int) : a.fmod 4 = a % 4 :=
  Int.fmod_eq_emod a (by norm_num)

theorem fdiv8_mul_le (x : Int) : x.fdiv 8 * 8 ≤ x := by
  rw [fdiv_eq_ediv8]; omega

theorem fdiv8_mul_of_aligned (x : Int) (h : x.fmod 8 = 0) : x.fdiv 8 * 8 = x := by
  rw [fdiv_eq_ediv8]; rw [fmod_eq_emod8] at h; omega

theorem fdiv8_mul_aligned (x : Int) : ((x.fdiv 8) * 8).fmod 8 = 0 := by
  rw [fmod_eq_emod8]; omega

theorem mul8_aligned (x : Int) : (x * 8).fmod 8 = 0 := by
  rw [fmod_eq_emod8]; omega

theorem chainFrom_append {p q r : Int} :
    ∀ {l1 l2 : List Fragment}, chainFrom p q l1 → chainFrom q r l2 →
      chainFrom p r (l1 ++ l2) := by
  intro l1
  induction l1 generalizing p with
  | nil =>
      intro l2 h1 h2
      simp only [chainFrom] at h1
      simpa [h1] using h2
  | cons f rest ih =>
      intro l2 h1 h2
      obtain ⟨hf, hd, hrest⟩ := h1
      exact ⟨hf, hd, ih hrest h2⟩

theorem chainFrom_sum {p q : Int} :
    ∀ {l : List Fragment}, chainFrom p q l →
      (l.map Fragment.data_length).sum = q - p := by
  intro l
  induction l generalizing p with
  | nil => intro h; simp only [chainFrom] at h; simp [h]
  | cons f rest ih =>
      intro h
      obtain ⟨hf, hd, hrest⟩ := h
      have := ih hrest
      simp only [List.map_cons, List.sum_cons, this]
      ring

theorem chainFrom_le {p q : Int} {l : List Fragment} (h : chainFrom p q l) :
    p ≤ q := by
  induction l generalizing p with
  | nil => simp only [chainFrom] at h; omega
  | cons f rest ih =>
      obtain ⟨hf, hd, hrest⟩ := h
      have := ih hrest
      omega

theorem chainFrom_mem_bounds {p q : Int} :
    ∀ {l : List Fragment}, chainFrom p q l →
      ∀ f ∈ l, p ≤ f.offset_units * 8 ∧ f.offset_units * 8 + f.data_length ≤ q := by
  intro l
  induction l generalizing p with
  | nil => intro _ f hf; cases hf
  | cons g rest ih =>
      intro h f hf
      obtain ⟨hg, hd, hrest⟩ := h
      rcases List.mem_cons.mp hf with hf | hf
      · subst hf
        have := chainFrom_le hrest
        omega
      · have := ih hrest f hf
        omega

theorem chainFrom_pos {p q : Int} {l : List Fragment} (h : chainFrom p q l) :
    ∀ f ∈ l, 0 < f.data_length := by
  induction l generalizing p with
  | nil => intro f hf; cases hf
  | cons g rest ih =>
      intro f hf
      obtain ⟨hg, hd, hrest⟩ := h
      rcases List.mem_cons.mp hf with hf | hf
      · subst hf; exact hd
      · exact ih hrest f hf

theorem alignedButLast_cons {f : Fragment} {rest : List Fragment} :
    alignedButLast (f :: rest) ↔
      (rest = [] ∨ (f.data_length.fmod 8 = 0 ∧ alignedButLast rest)) := by
  cases rest with
  | nil => simp [alignedButLast]
  | cons g tail => simp [alignedButLast]

theorem alignedButLast_nil : alignedButLast [] := trivial

theorem alignedButLast_dropLast {l : List Fragment} (h : alignedButLast l) :
    ∀ f ∈ l.dropLast, f.data_length.fmod 8 = 0 := by
  induction l with
  | nil => intro f hf; cases hf
  | cons g rest ih =>
      intro f hf
      cases rest with
      | nil => simp at hf
      | cons g' tail =>
          obtain ⟨hg, htail⟩ := h
          rw [List.dropLast_cons₂] at hf
          rcases List.mem_cons.mp hf with hf | hf
          · subst hf; exact hg
          · exact ih htail f hf

/-- If a list tiles an interval whose total length is a multiple of 8 and
all fragments but the last are aligned, then every fragment is aligned. -/
theorem allAligned_of_chain {p q : Int} :
    ∀ {l : List Fragment}, chainFrom p q l → alignedButLast l →
      (q - p).fmod 8 = 0 → ∀ f ∈ l, f.data_length.fmod 8 = 0 := by
  intro l
  induction l generalizing p with
  | nil => intro _ _ _ f hf; cases hf
  | cons g rest ih =>
      intro hc ha hq f hf
      obtain ⟨hg, hd, hrest⟩ := hc
      cases rest with
      | nil =>
          simp only [chainFrom] at hrest
          rcases List.mem_cons.mp hf with hf | hf
          · subst hf
            have : f.data_length = q - p := by omega
            rw [this]; exact hq
          · cases hf
      | cons g' tail =>
          obtain ⟨hga, hresta⟩ := ha
          rcases List.mem_cons.mp hf with hf | hf
          · subst hf; exact hga
          · refine ih hrest hresta ?_ f hf
            rw [fmod_eq_emod8] at hq hga ⊢
            omega

theorem alignedButLast_append {l1 l2 : List Fragment}
    (h1 : ∀ f ∈ l1, f.data_length.fmod 8 = 0) (h2 : alignedButLast l2) :
    alignedButLast (l1 ++ l2) := by
  induction l1 with
  | nil => simpa using h2
  | cons f rest ih =>
      rw [List.cons_append, alignedButLast_cons]
      right
      refine ⟨h1 f (by simp), ih ?_⟩
      intro g hg
      exact h1 g (by simp [hg])

theorem alignedButLast_append_nil {l : List Fragment} (h : alignedButLast l) :
    alignedButLast (l ++ []) := by simpa using h

theorem chunkSize_le (max_data rem : Int) : chunkSize max_data rem ≤ rem := by
  unfold chunkSize
  split_ifs with h
  · have h1 : min rem max_data = max_data := min_eq_right (le_of_lt h)
    rw [h1]
    have := fdiv8_mul_le max_data
    omega
  · have h1 : min rem max_data = rem := min_eq_left (by omega)
    omega

theorem chunkSize_of_lt {max_data rem : Int} (h : max_data < rem)
    (hal : max_data.fmod 8 = 0) : chunkSize max_data rem = max_data := by
  unfold chunkSize
  rw [if_pos h, min_eq_right (le_of_lt h), fdiv8_mul_of_aligned _ hal]

theorem chunkSize_of_ge {max_data rem : Int} (h : ¬ max_data < rem) :
    chunkSize max_data rem = rem := by
  unfold chunkSize
  rw [if_neg h, min_eq_left (by omega)]

theorem chunkSize_pos {max_data rem : Int} (hmax : 8 ≤ max_data) (hrem : 0 < rem) :
    0 < chunkSize max_data rem := by
  unfold chunkSize
  split_ifs with h
  · rw [min_eq_right (le_of_lt h), fdiv_eq_ediv8]
    omega
  · rw [min_eq_left (by omega)]
    exact hrem

/-- When the remaining data is exhausted the loop exits immediately. -/
theorem fragmentLoop_done (fid max_data : Int) (fuel : Nat) (rem off seq : Int)
    (h : rem ≤ 0) : fragmentLoop fid max_data fuel rem off seq = .ok [] := by
  cases fuel with
  | zero => unfold fragmentLoop; rw [if_neg (by omega)]
  | succ n => unfold fragmentLoop; rw [if_neg (by omega)]

/-- Out of fuel with data left: the embedding's artificial error. -/
theorem fragmentLoop_fuel (fid max_data : Int) (rem off seq : Int)
    (h : 0 < rem) : fragmentLoop fid max_data 0 rem off seq = .error .outOfFuel := by
  unfold fragmentLoop; rw [if_pos h]

/-- One iteration that trips the 13-bit offset check. -/
theorem fragmentLoop_step_over (fid max_data : Int) (fuel : Nat) (rem off seq : Int)
    (hr : 0 < rem) (hov : 8191 < off.fdiv 8) :
    fragmentLoop fid max_data (fuel + 1) rem off seq =
      .error (.offsetOverflow (off.fdiv 8)) := by
  unfold fragmentLoop; rw [if_pos hr, if_pos hov]

/-- One iteration whose recursive call fails. -/
theorem fragmentLoop_step_err (fid max_data : Int) (fuel : Nat) (rem off seq : Int)
    (e : FragError) (hr : 0 < rem) (hov : ¬ 8191 < off.fdiv 8)
    (hrec : fragmentLoop fid max_data fuel (rem - chunkSize max_data rem)
      (off + chunkSize max_data rem) (seq + 1) = .error e) :
    fragmentLoop fid max_data (fuel + 1) rem off seq = .error e := by
  unfold fragmentLoop; rw [if_pos hr, if_neg hov, hrec]

/-- One successful iteration: the fragment for the current chunk is
consed onto the fragments of the rest of the data. -/
theorem fragmentLoop_step_ok (fid max_data : Int) (fuel : Nat) (rem off seq : Int)
    (rest : List Fragment) (hr : 0 < rem) (hov : ¬ 8191 < off.fdiv 8)
    (hrec : fragmentLoop fid max_data fuel (rem - chunkSize max_data rem)
      (off + chunkSize max_data rem) (seq + 1) = .ok rest) :
    fragmentLoop fid max_data (fuel + 1) rem off seq =
      .ok (⟨fid, chunkSize max_data rem, off.fdiv 8, seq⟩ :: rest) := by
  unfold fragmentLoop; rw [if_pos hr, if_neg hov, hrec]

/-- Data conservation of the loop: a successful run emits fragments whose
data lengths sum exactly to the remaining data it started from. -/
theorem fragmentLoop_ok_sum (fid max_data : Int) :
    ∀ (fuel : Nat) (rem off seq : Int) (l : List Fragment), 0 ≤ rem →
      fragmentLoop fid max_data fuel rem off seq = .ok l →
      (l.map Fragment.data_length).sum = rem := by
  intro fuel
  induction fuel with
  | zero =>
      intro rem off seq l h0 hok
      by_cases hr : 0 < rem
      · rw [fragmentLoop_fuel fid max_data rem off seq hr] at hok
        cases hok
      · rw [fragmentLoop_done fid max_data 0 rem off seq (by omega)] at hok
        injection hok with h
        subst h
        simp only [List.map_nil, List.sum_nil]
        omega
  | succ n ih =>
      intro rem off seq l h0 hok
      by_cases hr : 0 < rem
      · by_cases hov : 8191 < off.fdiv 8
        · rw [fragmentLoop_step_over fid max_data n rem off seq hr hov] at hok
          cases hok
        · cases hrec : fragmentLoop fid max_data n (rem - chunkSize max_data rem)
              (off + chunkSize max_data rem) (seq + 1) with
          | error e =>
              rw [fragmentLoop_step_err fid max_data n rem off seq e hr hov hrec] at hok
              cases hok
          | ok rest =>
              rw [fragmentLoop_step_ok fid max_data n rem off seq rest hr hov hrec] at hok
              injection hok with h
              subst h
              have hle := chunkSize_le max_data rem
              have := ih (rem - chunkSize max_data rem) (off + chunkSize max_data rem)
                (seq + 1) rest (by omega) hrec
              simp only [List.map_cons, List.sum_cons, this]
              ring
      · rw [fragmentLoop_done fid max_data (n + 1) rem off seq (by omega)] at hok
        injection hok with h
        subst h
        simp only [List.map_nil, List.sum_nil]
        omega

/-- Every fragment emitted by a successful loop run passed the 13-bit
offset check. -/
theorem fragmentLoop_ok_offsets (fid max_data : Int) :
    ∀ (fuel : Nat) (rem off seq : Int) (l : List Fragment),
      fragmentLoop fid max_data fuel rem off seq = .ok l →
      ∀ f ∈ l, f.offset_units ≤ 8191 := by
  intro fuel
  induction fuel with
  | zero =>
      intro rem off seq l hok f hf
      by_cases hr : 0 < rem
      · rw [fragmentLoop_fuel fid max_data rem off seq hr] at hok
        cases hok
      · rw [fragmentLoop_done fid max_data 0 rem off seq (by omega)] at hok
        injection hok with h
        subst h
        cases hf
  | succ n ih =>
      intro rem off seq l hok f hf
      by_cases hr : 0 < rem
      · by_cases hov : 8191 < off.fdiv 8
        · rw [fragmentLoop_step_over fid max_data n rem off seq hr hov] at hok
          cases hok
        · cases hrec : fragmentLoop fid max_data n (rem - chunkSize max_data rem)
              (off + chunkSize max_data rem) (seq + 1) with
          | error e =>
              rw [fragmentLoop_step_err fid max_data n rem off seq e hr hov hrec] at hok
              cases hok
          | ok rest =>
              rw [fragmentLoop_step_ok fid max_data n rem off seq rest hr hov hrec] at hok
              injection hok with h
              subst h
              rcases List.mem_cons.mp hf with hf | hf
              · subst hf
                simpa using le_of_not_lt hov
              · exact ih _ _ _ rest hrec f hf
      · rw [fragmentLoop_done fid max_data (n + 1) rem off seq (by omega)] at hok
        injection hok with h
        subst h
        cases hf

/-- The structural invariant of a successful loop run: the emitted
fragments exactly tile `[off, off + rem)` and all but the last are
8-byte aligned, provided the chunk limit is a positive aligned value and
the starting offset is 8-byte aligned. -/
theorem fragmentLoop_ok_inv (fid max_data : Int) (hmax : 8 ≤ max_data)
    (hal : max_data.fmod 8 = 0) :
    ∀ (fuel : Nat) (rem off seq : Int) (l : List Fragment), 0 ≤ rem →
      off.fmod 8 = 0 →
      fragmentLoop fid max_data fuel rem off seq = .ok l →
      chainFrom off (off + rem) l ∧ alignedButLast l ∧ (0 < rem → l ≠ []) := by
  intro fuel
  induction fuel with
  | zero =>
      intro rem off seq l h0 hoff hok
      by_cases hr : 0 < rem
      · rw [fragmentLoop_fuel fid max_data rem off seq hr] at hok
        cases hok
      · rw [fragmentLoop_done fid max_data 0 rem off seq (by omega)] at hok
        injection hok with h
        subst h
        refine ⟨?_, alignedButLast_nil, by omega⟩
        simp only [chainFrom]
        omega
  | succ n ih =>
      intro rem off seq l h0 hoff hok
      by_cases hr : 0 < rem
      · by_cases hov : 8191 < off.fdiv 8
        · rw [fragmentLoop_step_over fid max_data n rem off seq hr hov] at hok
          cases hok
        · cases hrec : fragmentLoop fid max_data n (rem - chunkSize max_data rem)
              (off + chunkSize max_data rem) (seq + 1) with
          | error e =>
              rw [fragmentLoop_step_err fid max_data n rem off seq e hr hov hrec] at hok
              cases hok
          | ok rest =>
              rw [fragmentLoop_step_ok fid max_data n rem off seq rest hr hov hrec] at hok
              injection hok with h
              subst h
              have hoffeq : off.fdiv 8 * 8 = off := fdiv8_mul_of_aligned _ hoff
              by_cases hbig : max_data < rem
              · have hcs : chunkSize max_data rem = max_data := chunkSize_of_lt hbig hal
                have hoff2 : (off + chunkSize max_data rem).fmod 8 = 0 := by
                  rw [hcs]
                  rw [fmod_eq_emod8] at hoff hal ⊢
                  omega
                obtain ⟨hchain, halign, hne⟩ := ih (rem - chunkSize max_data rem)
                  (off + chunkSize max_data rem) (seq + 1) rest (by rw [hcs]; omega)
                  hoff2 hrec
                refine ⟨⟨hoffeq, by show 0 < chunkSize max_data rem; rw [hcs]; omega, ?_⟩, ?_, by simp⟩
                · have harr : off + chunkSize max_data rem +
                      (rem - chunkSize max_data rem) = off + rem := by ring
                  rw [harr] at hchain
                  exact hchain
                · rw [alignedButLast_cons]
                  right
                  exact ⟨by rw [hcs]; exact hal, halign⟩
              · have hcs : chunkSize max_data rem = rem := chunkSize_of_ge hbig
                have hdone := fragmentLoop_done fid max_data n
                  (rem - chunkSize max_data rem) (off + chunkSize max_data rem)
                  (seq + 1) (by rw [hcs]; omega)
                rw [hdone] at hrec
                injection hrec with hrest
                subst hrest
                refine ⟨⟨hoffeq, by show 0 < chunkSize max_data rem; rw [hcs]; omega, ?_⟩, ?_, by simp⟩
                · simp only [chainFrom]
                  rw [hcs]
                · rw [alignedButLast_cons]
                  left
                  rfl
      · rw [fragmentLoop_done fid max_data (n + 1) rem off seq (by omega)] at hok
        injection hok with h
        subst h
        refine ⟨?_, alignedButLast_nil, by omega⟩
        simp only [chainFrom]
        omega

/-- Success of the loop: with a positive aligned chunk limit, enough fuel,
a non-negative starting offset and total extent within the 13-bit range
(`off + rem ≤ 65536`), the loop completes without error. -/
theorem fragmentLoop_success (fid max_data : Int) (hmax : 8 ≤ max_data) :
    ∀ (fuel : Nat) (rem off seq : Int), rem.toNat ≤ fuel → 0 ≤ off →
      off + rem ≤ 65536 →
      ∃ l, fragmentLoop fid max_data fuel rem off seq = .ok l := by
  intro fuel
  induction fuel with
  | zero =>
      intro rem off seq hfuel hoff hbound
      exact ⟨[], fragmentLoop_done _ _ _ _ _ _ (by omega)⟩
  | succ n ih =>
      intro rem off seq hfuel hoff hbound
      by_cases hr : 0 < rem
      · have hov : ¬ 8191 < off.fdiv 8 := by
          rw [fdiv_eq_ediv8]
          omega
        by_cases hbig : max_data < rem
        · have hcs : 8 ≤ chunkSize max_data rem := by
            unfold chunkSize
            rw [if_pos hbig, min_eq_right (le_of_lt hbig), fdiv_eq_ediv8]
            omega
          have hle := chunkSize_le max_data rem
          obtain ⟨l, hl⟩ := ih (rem - chunkSize max_data rem)
            (off + chunkSize max_data rem) (seq + 1) (by omega) (by omega) (by omega)
          exact ⟨_, fragmentLoop_step_ok fid max_data n rem off seq l hr hov hl⟩
        · have hcs : chunkSize max_data rem = rem := chunkSize_of_ge hbig
          have hl := fragmentLoop_done fid max_data n (rem - chunkSize max_data rem)
            (off + chunkSize max_data rem) (seq + 1) (by omega)
          exact ⟨_, fragmentLoop_step_ok fid max_data n rem off seq [] hr hov hl⟩
      · exact ⟨[], fragmentLoop_done _ _ _ _ _ _ (by omega)⟩

/-- `fragment_packet` reduced to its loop once the three guards passed. -/
theorem fragment_packet_eq_loop (ds off hs mtu fid : Int) (h1 : ¬ ds < 0)
    (h2 : ¬ ds = 0) (h3 : ¬ mtu < hs + 8) :
    fragment_packet ds off hs mtu fid =
      fragmentLoop fid (((mtu - hs).fdiv 8) * 8) ds.toNat ds off 1 := by
  unfold fragment_packet
  rw [if_neg h1, if_neg h2, if_neg h3]

/-- A successful `fragment_packet` call implies its guards passed and its
result is the loop's result. -/
theorem fragment_packet_ok_inv (ds off hs mtu fid : Int) (l : List Fragment)
    (h : fragment_packet ds off hs mtu fid = .ok l) :
    0 < ds ∧ hs + 8 ≤ mtu ∧
      fragmentLoop fid (((mtu - hs).fdiv 8) * 8) ds.toNat ds off 1 = .ok l := by
  unfold fragment_packet at h
  split_ifs at h with h1 h2 h3
  exact ⟨by omega, by omega, h⟩

/-- Once the guards passed, the chunk limit is a positive multiple of 8. -/
theorem max_data_ge8 {hs mtu : Int} (h : hs + 8 ≤ mtu) :
    8 ≤ ((mtu - hs).fdiv 8) * 8 := by
  rw [fdiv_eq_ediv8]
  omega

/-- Data conservation per call: a fragment list successfully returned by
`fragment_packet` has data lengths summing exactly to `data_size`. -/
theorem fragment_packet_sum (ds off hs mtu fid : Int) (l : List Fragment)
    (h : fragment_packet ds off hs mtu fid = .ok l) :
    (l.map Fragment.data_length).sum = ds := by
  obtain ⟨hds, _, hloop⟩ := fragment_packet_ok_inv ds off hs mtu fid l h
  exact fragmentLoop_ok_sum fid _ ds.toNat ds off 1 l (by omega) hloop

/-- Offset bound per call: every fragment successfully returned by
`fragment_packet` has `offset_units ≤ 8191`. -/
theorem fragment_packet_offsets (ds off hs mtu fid : Int) (l : List Fragment)
    (h : fragment_packet ds off hs mtu fid = .ok l) :
    ∀ f ∈ l, f.offset_units ≤ 8191 := by
  obtain ⟨_, _, hloop⟩ := fragment_packet_ok_inv ds off hs mtu fid l h
  exact fragmentLoop_ok_offsets fid _ ds.toNat ds off 1 l hloop

/-- Tiling per call: with an 8-byte aligned starting offset (the
documented precondition of the source function), a successful
`fragment_packet` call returns a non-empty list that exactly tiles
`[offset, offset + data_size)`, all fragments but the last aligned. -/
theorem fragment_packet_chain (ds off hs mtu fid : Int) (l : List Fragment)
    (hoff : off.fmod 8 = 0) (h : fragment_packet ds off hs mtu fid = .ok l) :
    chainFrom off (off + ds) l ∧ alignedButLast l ∧ l ≠ [] := by
  obtain ⟨hds, hmtu, hloop⟩ := fragment_packet_ok_inv ds off hs mtu fid l h
  obtain ⟨hchain, halign, hne⟩ := fragmentLoop_ok_inv fid _ (max_data_ge8 hmtu)
    (fdiv8_mul_aligned _) ds.toNat ds off 1 l (by omega) hoff hloop
  exact ⟨hchain, halign, hne hds⟩

/-- Success per call: positive data, a workable MTU and an extent within
the 13-bit offset range guarantee `fragment_packet` succeeds. -/
theorem fragment_packet_success (ds off hs mtu fid : Int) (h1 : 0 < ds)
    (h2 : hs + 8 ≤ mtu) (h3 : 0 ≤ off) (h4 : off + ds ≤ 65536) :
    ∃ l, fragment_packet ds off hs mtu fid = .ok l := by
  obtain ⟨l, hl⟩ := fragmentLoop_success fid _ (max_data_ge8 h2) ds.toNat ds off 1
    (by omega) h3 h4
  refine ⟨l, ?_⟩
  rw [fragment_packet_eq_loop ds off hs mtu fid (by omega) (by omega) (by omega)]
  exact hl

theorem renumberFrom_length (base : Int) (l : List Fragment) :
    (renumberFrom base l).length = l.length := by
  induction l generalizing base with
  | nil => rfl
  | cons f rest ih => simp [renumberFrom, ih]

theorem renumberFrom_ne_nil {l : List Fragment} (h : l ≠ []) (base : Int) :
    renumberFrom base l ≠ [] := by
  cases l with
  | nil => cases h rfl
  | cons f rest => simp [renumberFrom]

theorem renumberFrom_chain {p q : Int} :
    ∀ {l : List Fragment} {base : Int}, chainFrom p q l →
      chainFrom p q (renumberFrom base l) := by
  intro l
  induction l generalizing p with
  | nil => intro base h; exact h
  | cons f rest ih =>
      intro base h
      obtain ⟨hf, hd, hrest⟩ := h
      exact ⟨hf, hd, ih hrest⟩

theorem renumberFrom_dlen (base : Int) (l : List Fragment) :
    (renumberFrom base l).map Fragment.data_length = l.map Fragment.data_length := by
  induction l generalizing base with
  | nil => rfl
  | cons f rest ih => simp [renumberFrom, ih]

theorem renumberFrom_aligned :
    ∀ {l : List Fragment} {base : Int}, alignedButLast l →
      alignedButLast (renumberFrom base l) := by
  intro l
  induction l with
  | nil => intro base h; exact h
  | cons f rest ih =>
      intro base h
      cases rest with
      | nil => exact trivial
      | cons g tail =>
          obtain ⟨hf, hrest⟩ := h
          exact ⟨hf, ih hrest⟩

theorem renumberFrom_allAligned {l : List Fragment} {base : Int}
    (h : ∀ f ∈ l, f.data_length.fmod 8 = 0) :
    ∀ f ∈ renumberFrom base l, f.data_length.fmod 8 = 0 := by
  induction l generalizing base with
  | nil => intro f hf; cases hf
  | cons g rest ih =>
      intro f hf
      rcases List.mem_cons.mp hf with hf | hf
      · subst hf
        exact h g (by simp)
      · exact ih (fun g' hg' => h g' (by simp [hg'])) f hf

/-- The fragment at position `i` of a renumbered list is the original
fragment with its sequence number replaced by `base + i + 1`. -/
theorem renumberFrom_get (base : Int) :
    ∀ (l : List Fragment) (i : Nat) (f : Fragment),
      (renumberFrom base l).get? i = some f →
      ∃ g, l.get? i = some g ∧ f.fragment_id = g.fragment_id ∧
        f.data_length = g.data_length ∧ f.offset_units = g.offset_units ∧
        f.seq = base + (i : Int) + 1 := by
  intro l
  induction l generalizing base with
  | nil => intro i f h; cases h
  | cons g rest ih =>
      intro i f h
      cases i with
      | zero =>
          simp only [renumberFrom, List.get?] at h
          injection h with h
          subst h
          exact ⟨g, rfl, rfl, rfl, rfl, by simp⟩
      | succ j =>
          simp only [renumberFrom, List.get?] at h
          obtain ⟨g', hg', h1, h2, h3, h4⟩ := ih (base + 1) j f h
          refine ⟨g', hg', h1, h2, h3, ?_⟩
          rw [h4]
          push_cast
          ring

theorem append_ne_nil_left {α : Type} {l1 l2 : List α} (h : l1 ≠ []) :
    l1 ++ l2 ≠ [] := by
  cases l1 with
  | nil => cases h rfl
  | cons a t => simp

theorem alignedButLast_tail {f : Fragment} {rest : List Fragment}
    (h : alignedButLast (f :: rest)) : alignedButLast rest := by
  rcases alignedButLast_cons.mp h with h | h
  · subst h; exact alignedButLast_nil
  · exact h.2

theorem hopStep_nil (hs mtu : Int) (acc : List Fragment) :
    hopStep hs mtu [] acc = .ok acc := rfl

/-- A fragment that fits the hop's MTU is appended unchanged. -/
theorem hopStep_pass (hs mtu : Int) (f : Fragment) (rest acc : List Fragment)
    (h : f.data_length + hs ≤ mtu) :
    hopStep hs mtu (f :: rest) acc = hopStep hs mtu rest (acc ++ [f]) := by
  simp only [hopStep]
  rw [if_pos h]

/-- A fragment that does not fit is split and the sub-fragments appended
renumbered relative to the current position. -/
theorem hopStep_split_ok (hs mtu : Int) (f : Fragment) (rest acc subs : List Fragment)
    (hfit : ¬ f.data_length + hs ≤ mtu)
    (hsubs : fragment_packet f.data_length (f.offset_units * 8) hs mtu
      f.fragment_id = .ok subs) :
    hopStep hs mtu (f :: rest) acc =
      hopStep hs mtu rest (acc ++ renumberFrom (acc.length : Int) subs) := by
  simp only [hopStep]
  rw [if_neg hfit, hsubs]

/-- A failing per-fragment call aborts the hop with that error. -/
theorem hopStep_split_err (hs mtu : Int) (f : Fragment) (rest acc : List Fragment)
    (e : FragError) (hfit : ¬ f.data_length + hs ≤ mtu)
    (hsubs : fragment_packet f.data_length (f.offset_units * 8) hs mtu
      f.fragment_id = .error e) :
    hopStep hs mtu (f :: rest) acc = .error e := by
  simp only [hopStep]
  rw [if_neg hfit, hsubs]

/-- Invariant preservation across one hop: if the incoming fragments tile
`[p, D)` (with `0 ≤ p`, `D ≤ 65536`, a workable MTU) and all but the last
are aligned, the hop succeeds and its output, appended after the
accumulator, tiles the same interval with the same alignment shape. -/
theorem hopStep_ok_inv (hs mtu D : Int) (hmtu : hs + 8 ≤ mtu) (hD : D ≤ 65536) :
    ∀ (l : List Fragment), ∀ (acc : List Fragment) (p : Int), 0 ≤ p →
      chainFrom p D l → alignedButLast l →
      ∃ l2, hopStep hs mtu l acc = .ok (acc ++ l2) ∧ chainFrom p D l2 ∧
        alignedButLast l2 ∧ (l = [] → l2 = []) ∧ (l ≠ [] → l2 ≠ []) := by
  intro l
  induction l with
  | nil =>
      intro acc p hp hchain halign
      exact ⟨[], by simp [hopStep_nil], hchain, alignedButLast_nil,
        fun _ => rfl, fun h => absurd rfl h⟩
  | cons f rest ih =>
      intro acc p hp hchain halign
      obtain ⟨hf, hd, hrest⟩ := hchain
      have hrest_al : alignedButLast rest := alignedButLast_tail halign
      by_cases hfit : f.data_length + hs ≤ mtu
      · obtain ⟨l2, hstep, hchain2, halign2, hnil2, hne2⟩ :=
          ih (acc ++ [f]) (p + f.data_length) (by omega) hrest hrest_al
        refine ⟨f :: l2, ?_, ⟨hf, hd, hchain2⟩, ?_, by simp, by simp⟩
        · rw [hopStep_pass hs mtu f rest acc hfit, hstep]
          simp
        · rw [alignedButLast_cons]
          by_cases hr2 : l2 = []
          · exact Or.inl hr2
          · right
            have hrne : rest ≠ [] := fun hcon => hr2 (hnil2 hcon)
            have hfal : f.data_length.fmod 8 = 0 := by
              rcases alignedButLast_cons.mp halign with h | h
              · exact absurd h hrne
              · exact h.1
            exact ⟨hfal, halign2⟩
      · have hbound : p + f.data_length ≤ D := chainFrom_le hrest
        obtain ⟨subs, hsubs⟩ := fragment_packet_success f.data_length
          (f.offset_units * 8) hs mtu f.fragment_id hd hmtu (by omega) (by omega)
        obtain ⟨hchainS, halignS, hneS⟩ := fragment_packet_chain f.data_length
          (f.offset_units * 8) hs mtu f.fragment_id subs (mul8_aligned _) hsubs
        rw [hf] at hchainS
        obtain ⟨l2, hstep, hchain2, halign2, hnil2, hne2⟩ :=
          ih (acc ++ renumberFrom (acc.length : Int) subs) (p + f.data_length)
            (by omega) hrest hrest_al
        refine ⟨renumberFrom (acc.length : Int) subs ++ l2, ?_, ?_, ?_, by simp, ?_⟩
        · rw [hopStep_split_ok hs mtu f rest acc subs hfit hsubs, hstep]
          simp
        · exact chainFrom_append (renumberFrom_chain hchainS) hchain2
        · by_cases hr2 : l2 = []
          · subst hr2
            exact alignedButLast_append_nil (renumberFrom_aligned halignS)
          · have hrne : rest ≠ [] := fun hcon => hr2 (hnil2 hcon)
            have hfal : f.data_length.fmod 8 = 0 := by
              rcases alignedButLast_cons.mp halign with h | h
              · exact absurd h hrne
              · exact h.1
            have hallS : ∀ g ∈ subs, g.data_length.fmod 8 = 0 := by
              refine allAligned_of_chain hchainS halignS ?_
              simpa using hfal
            exact alignedButLast_append (renumberFrom_allAligned hallS) halign2
        · intro _
          exact append_ne_nil_left (renumberFrom_ne_nil hneS _)

/-- The hop loop only ever appends: its output extends the accumulator. -/
theorem hopStep_prefix (hs mtu : Int) :
    ∀ (l acc out : List Fragment), hopStep hs mtu l acc = .ok out →
      ∃ t, out = acc ++ t := by
  intro l
  induction l with
  | nil =>
      intro acc out h
      rw [hopStep_nil] at h
      injection h with h
      exact ⟨[], by simp [h]⟩
  | cons f rest ih =>
      intro acc out h
      by_cases hfit : f.data_length + hs ≤ mtu
      · rw [hopStep_pass hs mtu f rest acc hfit] at h
        obtain ⟨t, ht⟩ := ih (acc ++ [f]) out h
        exact ⟨[f] ++ t, by simp [ht]⟩
      · cases hsub : fragment_packet f.data_length (f.offset_units * 8) hs mtu
            f.fragment_id with
        | error e =>
            rw [hopStep_split_err hs mtu f rest acc e hfit hsub] at h
            cases h
        | ok subs =>
            rw [hopStep_split_ok hs mtu f rest acc subs hfit hsub] at h
            obtain ⟨t, ht⟩ := ih _ out h
            exact ⟨renumberFrom (acc.length : Int) subs ++ t, by simp [ht]⟩

/-- A fitting fragment of the hop's input is appended unchanged, so it is
a member of the hop's output (identifier, length, offset and even its
sequence number intact). -/
theorem hopStep_mem (hs mtu : Int) :
    ∀ (l acc out : List Fragment), hopStep hs mtu l acc = .ok out →
      ∀ f ∈ l, f.data_length + hs ≤ mtu → f ∈ out := by
  intro l
  induction l with
  | nil => intro acc out h f hf; cases hf
  | cons g rest ih =>
      intro acc out h f hf hfit2
      rcases List.mem_cons.mp hf with hf | hf
      · subst hf
        rw [hopStep_pass hs mtu f rest acc hfit2] at h
        obtain ⟨t, ht⟩ := hopStep_prefix hs mtu rest (acc ++ [f]) out h
        subst ht
        simp
      · by_cases hfitg : g.data_length + hs ≤ mtu
        · rw [hopStep_pass hs mtu g rest acc hfitg] at h
          exact ih _ out h f hf hfit2
        · cases hsub : fragment_packet g.data_length (g.offset_units * 8) hs mtu
              g.fragment_id with
          | error e =>
              rw [hopStep_split_err hs mtu g rest acc e hfitg hsub] at h
              cases h
          | ok subs =>
              rw [hopStep_split_ok hs mtu g rest acc subs hfitg hsub] at h
              exact ih _ out h f hf hfit2

/-- A hop whose MTU accommodates every incoming fragment reproduces its
input exactly (sequence numbers included). -/
theorem hopStep_id (hs mtu : Int) :
    ∀ (l acc : List Fragment), (∀ f ∈ l, f.data_length + hs ≤ mtu) →
      hopStep hs mtu l acc = .ok (acc ++ l) := by
  intro l
  induction l with
  | nil => intro acc h; simp [hopStep_nil]
  | cons f rest ih =>
      intro acc h
      rw [hopStep_pass hs mtu f rest acc (h f (by simp))]
      rw [ih (acc ++ [f]) (fun g hg => h g (by simp [hg]))]
      simp

theorem runHops_nil (hs idx : Int) (frags : List Fragment) (hops : List HopResult) :
    runHops hs [] idx frags hops = .ok hops := rfl

theorem runHops_step_ok (hs mtu : Int) (rest : List Int) (idx : Int)
    (frags l2 : List Fragment) (hops : List HopResult)
    (h : hopStep hs mtu frags [] = .ok l2) :
    runHops hs (mtu :: rest) idx frags hops =
      runHops hs rest (idx + 1) l2 (hops ++ [⟨idx + 1, mtu, l2⟩]) := by
  simp only [runHops]
  rw [h]

theorem runHops_step_err (hs mtu : Int) (rest : List Int) (idx : Int)
    (frags : List Fragment) (hops : List HopResult) (e : FragError)
    (h : hopStep hs mtu frags [] = .error e) :
    runHops hs (mtu :: rest) idx frags hops = .error (.fragmentation e, hops) := by
  simp only [runHops]
  rw [h]

/-- The multi-hop loop succeeds on validated state and every recorded hop
satisfies the tiling and alignment invariants for the full payload. -/
theorem runHops_inv (hs D : Int) (hD : D ≤ 65536) :
    ∀ (mp : List Int) (idx : Int) (l : List Fragment) (hops : List HopResult),
      (∀ m ∈ mp, hs + 8 ≤ m) → chainFrom 0 D l → alignedButLast l → l ≠ [] →
      ∃ hl, runHops hs mp idx l hops = .ok (hops ++ hl) ∧
        ∀ h ∈ hl, chainFrom 0 D h.fragments ∧ alignedButLast h.fragments ∧
          h.fragments ≠ [] := by
  intro mp
  induction mp with
  | nil =>
      intro idx l hops _ _ _ _
      exact ⟨[], by simp [runHops_nil], fun h hh => absurd hh (by simp)⟩
  | cons mtu rest ih =>
      intro idx l hops hm hchain halign hne
      obtain ⟨l2, hstep, hchain2, halign2, _, hne2⟩ :=
        hopStep_ok_inv hs mtu D (hm mtu (by simp)) hD l [] 0 le_rfl hchain halign
      rw [List.nil_append] at hstep
      obtain ⟨hl, hrun, hprop⟩ := ih (idx + 1) l2 (hops ++ [⟨idx + 1, mtu, l2⟩])
        (fun m hm2 => hm m (by simp [hm2])) hchain2 halign2 (hne2 hne)
      refine ⟨⟨idx + 1, mtu, l2⟩ :: hl, ?_, ?_⟩
      · rw [runHops_step_ok hs mtu rest idx l l2 hops hstep, hrun]
        simp
      · intro h hh
        rcases List.mem_cons.mp hh with hh | hh
        · subst hh
          exact ⟨hchain2, halign2, hne2 hne⟩
        · exact hprop h hh

/-- The MTU-path loop of the validator accepts exactly the paths whose
every MTU is within bounds and workable for the header. -/
theorem validateMtuPath_ok_iff (hs : Int) :
    ∀ (mp : List Int) (i : Int),
      validateMtuPath hs i mp = .ok () ↔
        ∀ m ∈ mp, 68 ≤ m ∧ m ≤ 65535 ∧ hs + 8 ≤ m := by
  intro mp
  induction mp with
  | nil => intro i; simp [validateMtuPath]
  | cons mtu rest ih =>
      intro i
      unfold validateMtuPath
      simp only [min_mtu, max_mtu]
      split_ifs with h1 h2 h3
      · constructor
        · intro h; cases h
        · intro hall; exact absurd (hall mtu (by simp)).1 (by omega)
      · constructor
        · intro h; cases h
        · intro hall; exact absurd (hall mtu (by simp)).2.1 (by omega)
      · constructor
        · intro h; cases h
        · intro hall; exact absurd (hall mtu (by simp)).2.2 (by omega)
      · rw [ih (i + 1)]
        constructor
        · intro hall m hm
          rcases List.mem_cons.mp hm with hm | hm
          · subst hm
            exact ⟨by omega, by omega, by omega⟩
          · exact hall m hm
        · intro hall m hm
          exact hall m (by simp [hm])

/-- The validator accepts exactly the inputs within all RFC 791 bounds. -/
theorem validate_ok_iff (ps hs : Int) (mp : List Int) :
    validate_fragmentation_inputs ps hs mp = .ok () ↔
      (20 ≤ ps ∧ ps ≤ 65535 ∧ 20 ≤ hs ∧ hs ≤ 60 ∧ hs.fmod 4 = 0 ∧
        0 < ps - hs ∧ mp ≠ [] ∧ ∀ m ∈ mp, 68 ≤ m ∧ m ≤ 65535 ∧ hs + 8 ≤ m) := by
  unfold validate_fragmentation_inputs
  simp only [min_packet_size, max_packet_size, min_header_size, max_header_size]
  split_ifs with h1 h2 h3 h4 h5 h6 h7 h8
  · constructor
    · intro h; cases h
    · intro h; exact absurd h.1 (by omega)
  · constructor
    · intro h; cases h
    · intro h; exact absurd h.2.1 (by omega)
  · constructor
    · intro h; cases h
    · intro h; exact absurd h.2.2.1 (by omega)
  · constructor
    · intro h; cases h
    · intro h; exact absurd h.2.2.2.1 (by omega)
  · constructor
    · intro h; cases h
    · intro h; exact absurd h.2.2.2.2.1 h5
  · constructor
    · intro h; cases h
    · intro h; exact absurd h.2.2.2.2.2.1 (by omega)
  · constructor
    · intro h; cases h
    · intro h; exact absurd h.2.2.2.2.2.1 (by omega)
  · constructor
    · intro h; cases h
    · intro h; exact absurd h8 h.2.2.2.2.2.2.1
  · rw [validateMtuPath_ok_iff hs mp 0]
    constructor
    · intro hall
      refine ⟨by omega, by omega, by omega, by omega, by omega, by omega, h8, hall⟩
    · intro h
      exact h.2.2.2.2.2.2.2

/-- A failed validation short-circuits the simulation before any hop is
recorded. -/
theorem simulate_eq_validation_err (ps hs : Int) (mp : List Int) (fid : Int)
    (e : ValidationError) (hv : validate_fragmentation_inputs ps hs mp = .error e) :
    simulate_fragmentation ps hs mp fid = .error (.validation e, []) := by
  unfold simulate_fragmentation
  rw [hv]

/-- After a successful validation the simulation is the hop loop started
from the single initial fragment. -/
theorem simulate_eq_run (ps hs : Int) (mp : List Int) (fid : Int)
    (hv : validate_fragmentation_inputs ps hs mp = .ok ()) :
    simulate_fragmentation ps hs mp fid =
      match runHops hs mp 0 [⟨fid, ps - hs, 0, 1⟩] [] with
      | .error ep => .error ep
      | .ok hops => .ok ⟨fid, ps, hs, mp, hops⟩ := by
  unfold simulate_fragmentation
  rw [hv]

/-- Master lemma: a validated simulation succeeds, and every recorded hop
carries a non-empty fragment list that exactly tiles the original payload
`[0, packet_size - header_size)` with all but the last fragment aligned. -/
theorem simulate_ok_master (ps hs : Int) (mp : List Int) (fid : Int)
    (hv : validate_fragmentation_inputs ps hs mp = .ok ()) :
    ∃ hl, simulate_fragmentation ps hs mp fid = .ok ⟨fid, ps, hs, mp, hl⟩ ∧
      ∀ h ∈ hl, chainFrom 0 (ps - hs) h.fragments ∧
        alignedButLast h.fragments ∧ h.fragments ≠ [] := by
  obtain ⟨hps1, hps2, hhs1, hhs2, hmod, hdata, hnemp, hall⟩ :=
    (validate_ok_iff ps hs mp).mp hv
  have hinit : chainFrom 0 (ps - hs) [⟨fid, ps - hs, 0, 1⟩] := by
    refine ⟨by simp, hdata, ?_⟩
    simp only [chainFrom]
    ring
  obtain ⟨hl, hrun, hprop⟩ := runHops_inv hs (ps - hs) (by omega) mp 0
    [⟨fid, ps - hs, 0, 1⟩] [] (fun m hm => (hall m hm).2.2) hinit trivial (by simp)
  rw [List.nil_append] at hrun
  refine ⟨hl, ?_, hprop⟩
  rw [simulate_eq_run ps hs mp fid hv, hrun]

theorem reached_done (max_data : Int) (fuel : Nat) (rem off : Int) (h : rem ≤ 0) :
    reachedChunkStarts max_data fuel rem off = [] := by
  cases fuel with
  | zero => rfl
  | succ n => unfold reachedChunkStarts; rw [if_neg (by omega)]

theorem reached_over (max_data : Int) (fuel : Nat) (rem off : Int)
    (hr : 0 < rem) (hov : 8191 < off.fdiv 8) :
    reachedChunkStarts max_data (fuel + 1) rem off = [off] := by
  unfold reachedChunkStarts
  rw [if_pos hr, if_pos hov]

theorem reached_step (max_data : Int) (fuel : Nat) (rem off : Int)
    (hr : 0 < rem) (hov : ¬ 8191 < off.fdiv 8) :
    reachedChunkStarts max_data (fuel + 1) rem off =
      off :: reachedChunkStarts max_data fuel (rem - chunkSize max_data rem)
        (off + chunkSize max_data rem) := by
  simp only [reachedChunkStarts]
  rw [if_pos hr, if_neg hov]

/-- The loop raises the offset-overflow error exactly when one of the
chunk boundaries it reaches exceeds the 13-bit maximum. -/
theorem fragmentLoop_overflow_iff (fid max_data : Int) :
    ∀ (fuel : Nat) (rem off seq : Int),
      (∃ u, fragmentLoop fid max_data fuel rem off seq =
        .error (.offsetOverflow u)) ↔
      ∃ b ∈ reachedChunkStarts max_data fuel rem off, 8191 < b.fdiv 8 := by
  intro fuel
  induction fuel with
  | zero =>
      intro rem off seq
      constructor
      · rintro ⟨u, hu⟩
        by_cases hr : 0 < rem
        · rw [fragmentLoop_fuel fid max_data rem off seq hr] at hu
          cases hu
        · rw [fragmentLoop_done fid max_data 0 rem off seq (by omega)] at hu
          cases hu
      · rintro ⟨b, hb, _⟩
        cases hb
  | succ n ih =>
      intro rem off seq
      by_cases hr : 0 < rem
      · by_cases hov : 8191 < off.fdiv 8
        · rw [fragmentLoop_step_over fid max_data n rem off seq hr hov,
            reached_over max_data n rem off hr hov]
          constructor
          · intro _
            exact ⟨off, by simp, hov⟩
          · intro _
            exact ⟨off.fdiv 8, rfl⟩
        · rw [reached_step max_data n rem off hr hov]
          cases hrec : fragmentLoop fid max_data n (rem - chunkSize max_data rem)
              (off + chunkSize max_data rem) (seq + 1) with
          | error e =>
              rw [fragmentLoop_step_err fid max_data n rem off seq e hr hov hrec]
              constructor
              · rintro ⟨u, hu⟩
                injection hu with hu
                obtain ⟨b, hb, hbad⟩ := (ih _ _ (seq + 1)).mp ⟨u, by rw [hrec, hu]⟩
                exact ⟨b, by simp [hb], hbad⟩
              · rintro ⟨b, hb, hbad⟩
                rcases List.mem_cons.mp hb with hb | hb
                · subst hb
                  exact absurd hbad hov
                · obtain ⟨u, hu⟩ := (ih _ _ (seq + 1)).mpr ⟨b, hb, hbad⟩
                  rw [hrec] at hu
                  injection hu with hu
                  exact ⟨u, by rw [hu]⟩
          | ok rest =>
              rw [fragmentLoop_step_ok fid max_data n rem off seq rest hr hov hrec]
              constructor
              · rintro ⟨u, hu⟩
                cases hu
              · rintro ⟨b, hb, hbad⟩
                rcases List.mem_cons.mp hb with hb | hb
                · subst hb
                  exact absurd hbad hov
                · obtain ⟨u, hu⟩ := (ih _ _ (seq + 1)).mpr ⟨b, hb, hbad⟩
                  rw [hrec] at hu
                  cases hu
      · rw [fragmentLoop_done fid max_data (n + 1) rem off seq (by omega),
          reached_done max_data (n + 1) rem off (by omega)]
        constructor
        · rintro ⟨u, hu⟩
          cases hu
        · rintro ⟨b, hb, _⟩
          cases hb

/-- `fragment_packet` raises the offset-overflow error exactly when some
chunk boundary it reaches has `current_offset // 8 > 8191`. -/
theorem fragment_packet_overflow_iff (ds off hs mtu fid : Int) :
    (∃ u, fragment_packet ds off hs mtu fid = .error (.offsetOverflow u)) ↔
      ∃ b ∈ chunkStartsReached ds off hs mtu, 8191 < b.fdiv 8 := by
  unfold fragment_packet chunkStartsReached
  split_ifs with h1 h2 h3
  · constructor
    · rintro ⟨u, hu⟩; cases hu
    · rintro ⟨b, hb, _⟩; cases hb
  · constructor
    · rintro ⟨u, hu⟩; cases hu
    · rintro ⟨b, hb, _⟩; cases hb
  · constructor
    · rintro ⟨u, hu⟩; cases hu
    · rintro ⟨b, hb, _⟩; cases hb
  · exact fragmentLoop_overflow_iff fid _ ds.toNat ds off 1

/-- Adjacent fragments of a tiling chain: the next fragment starts exactly
where the previous one ends, and stored offsets strictly increase. -/
theorem chainFrom_adjacent {p q : Int} :
    ∀ {l : List Fragment}, chainFrom p q l →
      ∀ (i : Nat) (f g : Fragment), l.get? i = some f → l.get? (i + 1) = some g →
        g.offset_units * 8 = f.offset_units * 8 + f.data_length ∧
          f.offset_units < g.offset_units := by
  intro l
  induction l generalizing p with
  | nil =>
      intro _ i f g hf _
      cases hf
  | cons f0 rest ih =>
      intro hchain i f g hf hg
      obtain ⟨h0, hd0, hrest⟩ := hchain
      cases i with
      | zero =>
          injection hf with hf
          subst hf
          cases rest with
          | nil => cases hg
          | cons g0 rest' =>
              obtain ⟨hg0, hdg0, _⟩ := hrest
              injection hg with hg
              subst hg
              constructor
              · rw [hg0, h0]
              · omega
      | succ j =>
          exact ih hrest j f g hf hg

/-- Positional description of one hop's output: every fragment of the part
appended by the hop is either an input fragment carried over unchanged or
a freshly split fragment numbered by its append position. -/
theorem hopStep_seq (hs mtu : Int) :
    ∀ (l acc out : List Fragment), hopStep hs mtu l acc = .ok out →
      ∃ t, out = acc ++ t ∧
        ∀ (i : Nat) (f : Fragment), t.get? i = some f →
          f ∈ l ∨ f.seq = (acc.length : Int) + i + 1 := by
  intro l
  induction l with
  | nil =>
      intro acc out h
      rw [hopStep_nil] at h
      injection h with h
      refine ⟨[], by simp [h], ?_⟩
      intro i f hf
      cases hf
  | cons g rest ih =>
      intro acc out h
      by_cases hfit : g.data_length + hs ≤ mtu
      · rw [hopStep_pass hs mtu g rest acc hfit] at h
        obtain ⟨t, ht, hprop⟩ := ih (acc ++ [g]) out h
        refine ⟨g :: t, by simp [ht], ?_⟩
        intro i f hf
        cases i with
        | zero =>
            injection hf with hf
            subst hf
            exact Or.inl (by simp)
        | succ j =>
            rcases hprop j f hf with hmem | hseq
            · exact Or.inl (List.mem_cons_of_mem g hmem)
            · right
              rw [hseq]
              simp only [List.length_append, List.length_singleton]
              push_cast
              ring
      · cases hsub : fragment_packet g.data_length (g.offset_units * 8) hs mtu
            g.fragment_id with
        | error e =>
            rw [hopStep_split_err hs mtu g rest acc e hfit hsub] at h
            cases h
        | ok subs =>
            rw [hopStep_split_ok hs mtu g rest acc subs hfit hsub] at h
            obtain ⟨t, ht, hprop⟩ := ih (acc ++ renumberFrom (acc.length : Int) subs)
              out h
            refine ⟨renumberFrom (acc.length : Int) subs ++ t, by simp [ht], ?_⟩
            intro i f hf
            by_cases hi : i < (renumberFrom (acc.length : Int) subs).length
            · rw [List.get?_append hi] at hf
              obtain ⟨g', _, _, _, _, hseq⟩ := renumberFrom_get (acc.length : Int)
                subs i f hf
              exact Or.inr hseq
            · rw [List.get?_append_right (le_of_not_lt hi)] at hf
              rcases hprop _ f hf with hmem | hseq
              · exact Or.inl (List.mem_cons_of_mem g hmem)
              · right
                rw [hseq]
                have hlen : (renumberFrom (acc.length : Int) subs).length ≤ i :=
                  le_of_not_lt hi
                simp only [List.length_append]
                push_cast [Nat.cast_sub hlen]
                ring

/-- An error of the MTU-path loop identifies the first offending MTU and
carries its 1-indexed position (relative to the loop's starting index). -/
theorem validateMtuPath_err (hs : Int) :
    ∀ (mp : List Int) (i0 : Int) (e : ValidationError),
      validateMtuPath hs i0 mp = .error e →
      ∃ pos : Nat, ∃ m, mp.get? pos = some m ∧ ¬ mtuRuleOk hs m ∧
        errHop e = some (i0 + (pos : Int) + 1) ∧ ruleIdx e = 4 ∧
        ∀ (j : Nat) (mj : Int), j < pos → mp.get? j = some mj →
          mtuRuleOk hs mj := by
  intro mp
  induction mp with
  | nil => intro i0 e h; cases h
  | cons mtu rest ih =>
      intro i0 e h
      unfold validateMtuPath at h
      simp only [min_mtu, max_mtu] at h
      split_ifs at h with h1 h2 h3
      · injection h with h
        subst h
        refine ⟨0, mtu, rfl, by unfold mtuRuleOk; omega, by norm_num [errHop],
          rfl, ?_⟩
        intro j mj hj
        omega
      · injection h with h
        subst h
        refine ⟨0, mtu, rfl, by unfold mtuRuleOk; omega, by norm_num [errHop],
          rfl, ?_⟩
        intro j mj hj
        omega
      · injection h with h
        subst h
        refine ⟨0, mtu, rfl, by unfold mtuRuleOk; omega, by norm_num [errHop],
          rfl, ?_⟩
        intro j mj hj
        omega
      · obtain ⟨pos, m, hget, hbad, herr, hidx, hprev⟩ := ih (i0 + 1) e h
        refine ⟨pos + 1, m, hget, hbad, ?_, hidx, ?_⟩
        · rw [herr]
          congr 1
          push_cast
          ring
        · intro j mj hj hmj
          cases j with
          | zero =>
              injection hmj with hmj
              subst hmj
              unfold mtuRuleOk
              omega
          | succ j' =>
              exact hprev j' mj (by omega) hmj

/-- Any error of the validator is the first violated rule in the
specification's listed order. -/
theorem validate_err_sound (ps hs : Int) (mp : List Int) (e : ValidationError)
    (h : validate_fragmentation_inputs ps hs mp = .error e) :
    firstErrorSound ps hs mp e := by
  unfold validate_fragmentation_inputs at h
  simp only [min_packet_size, max_packet_size, min_header_size, max_header_size] at h
  split_ifs at h with h1 h2 h3 h4 h5 h6 h7 h8
  · injection h with h
    subst h
    exact ⟨fun j hj => absurd hj (by simp only [ruleIdx]; omega),
      by show ¬ (20 ≤ ps ∧ ps ≤ 65535); omega, fun k hk => by cases hk⟩
  · injection h with h
    subst h
    exact ⟨fun j hj => absurd hj (by simp only [ruleIdx]; omega),
      by show ¬ (20 ≤ ps ∧ ps ≤ 65535); omega, fun k hk => by cases hk⟩
  · injection h with h
    subst h
    refine ⟨?_, by show ¬ (20 ≤ hs ∧ hs ≤ 60 ∧ hs.fmod 4 = 0); intro hc; omega,
      fun k hk => by cases hk⟩
    intro j hj
    simp only [ruleIdx] at hj
    have : j = 0 := by omega
    subst this
    exact ⟨by omega, by omega⟩
  · injection h with h
    subst h
    refine ⟨?_, by show ¬ (20 ≤ hs ∧ hs ≤ 60 ∧ hs.fmod 4 = 0); intro hc; omega,
      fun k hk => by cases hk⟩
    intro j hj
    simp only [ruleIdx] at hj
    have : j = 0 := by omega
    subst this
    exact ⟨by omega, by omega⟩
  · injection h with h
    subst h
    refine ⟨?_, by show ¬ (20 ≤ hs ∧ hs ≤ 60 ∧ hs.fmod 4 = 0); intro hc; exact h5 hc.2.2,
      fun k hk => by cases hk⟩
    intro j hj
    simp only [ruleIdx] at hj
    have : j = 0 := by omega
    subst this
    exact ⟨by omega, by omega⟩
  · injection h with h
    subst h
    refine ⟨?_, by show ¬ (0 < ps - hs); omega, fun k hk => by cases hk⟩
    intro j hj
    simp only [ruleIdx] at hj
    match j, hj with
    | 0, _ => exact ⟨by omega, by omega⟩
    | 1, _ => exact ⟨by omega, by omega, by omega⟩
  · injection h with h
    subst h
    refine ⟨?_, by show ¬ (0 < ps - hs); omega, fun k hk => by cases hk⟩
    intro j hj
    simp only [ruleIdx] at hj
    match j, hj with
    | 0, _ => exact ⟨by omega, by omega⟩
    | 1, _ => exact ⟨by omega, by omega, by omega⟩
  · injection h with h
    subst h
    refine ⟨?_, by show ¬ (mp ≠ []); simpa using h8, fun k hk => by cases hk⟩
    intro j hj
    simp only [ruleIdx] at hj
    match j, hj with
    | 0, _ => exact ⟨by omega, by omega⟩
    | 1, _ => exact ⟨by omega, by omega, by omega⟩
    | 2, _ => show 0 < ps - hs; omega
  · obtain ⟨pos, m, hget, hbad, herr, hidx, hprev⟩ :=
      validateMtuPath_err hs mp 0 e h
    rw [firstErrorSound, hidx]
    refine ⟨?_, ?_, ?_⟩
    · intro j hj
      match j, hj with
      | 0, _ => exact ⟨by omega, by omega⟩
      | 1, _ => exact ⟨by omega, by omega, by omega⟩
      | 2, _ => show 0 < ps - hs; omega
      | 3, _ => show mp ≠ []; exact h8
    · show ¬ ∀ m ∈ mp, mtuRuleOk hs m
      intro hall
      exact hbad (hall m (List.get?_mem hget))
    · intro k hk
      rw [herr] at hk
      injection hk with hk
      exact ⟨pos, m, hget, by omega, hbad, hprev⟩

/-- Any failing simulation failed validation: it records no hops and its
error wraps a `ValidationError`. -/
theorem simulate_err_inv (ps hs : Int) (mp : List Int) (fid : Int)
    (e : SimError) (recorded : List HopResult)
    (h : simulate_fragmentation ps hs mp fid = .error (e, recorded)) :
    recorded = [] ∧ ∃ ve, e = .validation ve := by
  cases hv : validate_fragmentation_inputs ps hs mp with
  | error ve =>
      rw [simulate_eq_validation_err ps hs mp fid ve hv] at h
      injection h with h
      injection h with h1 h2
      exact ⟨h2.symm, ve, h1.symm⟩
  | ok u =>
      cases u
      obtain ⟨hl, hsim, _⟩ := simulate_ok_master ps hs mp fid hv
      rw [hsim] at h
      cases h

/-!
Claim theorems.
-/

/-- C1 (counterexample): for `packet_size = 1500`, `header_size = 20`,
`mtu_path = [576, 400]` the second hop's recorded fragment list carries the
sequence numbers `1, 2, 3, 4, 3` — the fifth fragment (the pass-through
`(376, 138)` fragment, which keeps its previous sequence number 3) does not
carry sequence number 5, so the hop's list is not consecutively numbered
`1..n`. -/
theorem seq_renumbering_counterexample :
    (IPv4.simulate_fragmentation 1500 20 [576, 400] 1).toOption.map
        (fun r => r.hops.map (fun h => h.fragments.map IPv4.Fragment.seq)) =
      some [[1, 2, 3], [1, 2, 3, 4, 3]] ∧
    ([1, 2, 3, 4, 3] : List Int) ≠ [1, 2, 3, 4, 5] := by
  constructor
  · decide
  · decide

/-- C1 (amended): in each hop's recorded fragment list, every fragment is
either a pass-through fragment carried over unchanged from the hop's input
(keeping its previous sequence number) or a newly split fragment whose
sequence number equals its 1-indexed position in the hop's list at the
moment it was appended. -/
theorem hop_seq_numbering (hs mtu : Int) (l out : List IPv4.Fragment)
    (h : IPv4.hopStep hs mtu l [] = .ok out) :
    ∀ (i : Nat) (f : IPv4.Fragment), out.get? i = some f →
      f ∈ l ∨ f.seq = (i : Int) + 1 := by
  obtain ⟨t, ht, hprop⟩ := IPv4.hopStep_seq hs mtu l [] out h
  rw [List.nil_append] at ht
  subst ht
  intro i f hf
  rcases hprop i f hf with hm | hseq
  · exact Or.inl hm
  · right
    simpa using hseq

/-- Witness for C1's amended theorem at a concrete pass-through hop. -/
theorem hop_seq_numbering_witness :
    (⟨1, 8, 0, 5⟩ : IPv4.Fragment) ∈ [(⟨1, 8, 0, 5⟩ : IPv4.Fragment)] ∨
      (⟨1, 8, 0, 5⟩ : IPv4.Fragment).seq = ((0 : Nat) : Int) + 1 :=
  hop_seq_numbering 20 68 [⟨1, 8, 0, 5⟩] [⟨1, 8, 0, 5⟩] (by decide) 0
    ⟨1, 8, 0, 5⟩ (by decide)

/-- C2: a failing simulation run records no hops at all — every failure is
an input-validation failure raised before any hop is processed, and a
validated run always completes with a full report, so no partial
`SimulationReport` (hops completed before a mid-run failure) can ever be
observed by the caller. -/
theorem simulate_failure_no_partial_report :
    (∀ (ps hs : Int) (mp : List Int) (fid : Int) (e : IPv4.SimError)
        (recorded : List IPv4.HopResult),
        IPv4.simulate_fragmentation ps hs mp fid = .error (e, recorded) →
        recorded = [] ∧ ∃ ve, e = .validation ve) ∧
    (∀ (ps hs : Int) (mp : List Int) (fid : Int),
        IPv4.validate_fragmentation_inputs ps hs mp = .ok () →
        ∃ hl, IPv4.simulate_fragmentation ps hs mp fid = .ok ⟨fid, ps, hs, mp, hl⟩) := by
  constructor
  · exact IPv4.simulate_err_inv
  · intro ps hs mp fid hv
    obtain ⟨hl, hsim, _⟩ := IPv4.simulate_ok_master ps hs mp fid hv
    exact ⟨hl, hsim⟩

/-- Witness for C2 at a concrete failing run. -/
theorem simulate_failure_no_partial_report_witness :
    ([] : List IPv4.HopResult) = [] ∧
      ∃ ve, IPv4.SimError.validation .packetTooSmall = .validation ve :=
  simulate_failure_no_partial_report.1 10 20 [68] 1
    (.validation .packetTooSmall) [] (by decide)

/-- C3: data conservation — every successful `fragment_packet` call
returns fragments whose data lengths sum exactly to its `data_size`
argument, and in a validated simulation every recorded hop's fragment
data lengths sum to the original payload size `packet_size - header_size`
(hence every hop's sum equals the previous hop's sum, and hop 1's sum is
the original data size). -/
theorem data_conservation :
    (∀ (ds off hs mtu fid : Int) (l : List IPv4.Fragment),
        IPv4.fragment_packet ds off hs mtu fid = .ok l →
        (l.map IPv4.Fragment.data_length).sum = ds) ∧
    (∀ (ps hs : Int) (mp : List Int) (fid : Int),
        IPv4.validate_fragmentation_inputs ps hs mp = .ok () →
        ∃ hl, IPv4.simulate_fragmentation ps hs mp fid = .ok ⟨fid, ps, hs, mp, hl⟩ ∧
          ∀ h ∈ hl, (h.fragments.map IPv4.Fragment.data_length).sum = ps - hs) := by
  constructor
  · exact IPv4.fragment_packet_sum
  · intro ps hs mp fid hv
    obtain ⟨hl, hsim, hprop⟩ := IPv4.simulate_ok_master ps hs mp fid hv
    refine ⟨hl, hsim, ?_⟩
    intro h hh
    have hsum := IPv4.chainFrom_sum (hprop h hh).1
    simpa using hsum

/-- Witness for C3 at the worked 1500/20/[576] input. -/
theorem data_conservation_witness :
    ∃ hl, IPv4.simulate_fragmentation 1500 20 [576] 7 = .ok ⟨7, 1500, 20, [576], hl⟩ ∧
      ∀ h ∈ hl, (h.fragments.map IPv4.Fragment.data_length).sum = 1500 - 20 :=
  data_conservation.2 1500 20 [576] 7 (by decide)

/-- C4: offset bound and raises-iff — every fragment of a successful
`fragment_packet` call (and of every hop of a validated simulation) has
`offset_units ≤ 8191`, and `fragment_packet` fails with the offset
overflow error exactly when one of the chunk boundaries its loop reaches
has `current_offset // 8 > 8191` (an `Except.error` result carries no
fragment list). -/
theorem offset_bound_and_overflow_iff :
    (∀ (ds off hs mtu fid : Int) (l : List IPv4.Fragment),
        IPv4.fragment_packet ds off hs mtu fid = .ok l →
        ∀ f ∈ l, f.offset_units ≤ 8191) ∧
    (∀ (ps hs : Int) (mp : List Int) (fid : Int),
        IPv4.validate_fragmentation_inputs ps hs mp = .ok () →
        ∃ hl, IPv4.simulate_fragmentation ps hs mp fid = .ok ⟨fid, ps, hs, mp, hl⟩ ∧
          ∀ h ∈ hl, ∀ f ∈ h.fragments, f.offset_units ≤ 8191) ∧
    (∀ (ds off hs mtu fid : Int),
        (∃ u, IPv4.fragment_packet ds off hs mtu fid =
          .error (.offsetOverflow u)) ↔
        ∃ b ∈ IPv4.chunkStartsReached ds off hs mtu, 8191 < b.fdiv 8) := by
  refine ⟨IPv4.fragment_packet_offsets, ?_, IPv4.fragment_packet_overflow_iff⟩
  intro ps hs mp fid hv
  obtain ⟨hl, hsim, hprop⟩ := IPv4.simulate_ok_master ps hs mp fid hv
  refine ⟨hl, hsim, ?_⟩
  intro h hh f hf
  obtain ⟨hp1, hp2, hh1, hh2, _, hd, _, _⟩ := (IPv4.validate_ok_iff ps hs mp).mp hv
  have hb := IPv4.chainFrom_mem_bounds (hprop h hh).1 f hf
  have hpos := IPv4.chainFrom_pos (hprop h hh).1 f hf
  omega

/-- Witness for C4 at the worked 1480/0/20/576 call. -/
theorem offset_bound_and_overflow_iff_witness :
    ∀ f ∈ [(⟨7, 552, 0, 1⟩ : IPv4.Fragment), ⟨7, 552, 69, 2⟩, ⟨7, 376, 138, 3⟩],
      IPv4.Fragment.offset_units f ≤ 8191 :=
  offset_bound_and_overflow_iff.1 1480 0 20 576 7
    [⟨7, 552, 0, 1⟩, ⟨7, 552, 69, 2⟩, ⟨7, 376, 138, 3⟩] (by decide)

/-- C5: validator contract — `validate_fragmentation_inputs` succeeds
exactly when `packet_size ∈ [20, 65535]`, `header_size ∈ [20, 60]` and a
multiple of 4, `packet_size - header_size > 0`, the MTU path is non-empty
and every MTU lies in `[68, 65535]` with `mtu ≥ header_size + 8` (the
embedding is a pure function, so the check has no side effects); on
failure the reported error is the first violated rule in that listed
order, annotated with the 1-indexed hop position of the first offending
MTU for MTU-path violations. -/
theorem validator_accept_iff_and_first_error :
    ∀ (ps hs : Int) (mp : List Int),
      (IPv4.validate_fragmentation_inputs ps hs mp = .ok () ↔
        (20 ≤ ps ∧ ps ≤ 65535 ∧ 20 ≤ hs ∧ hs ≤ 60 ∧ hs.fmod 4 = 0 ∧
          0 < ps - hs ∧ mp ≠ [] ∧ ∀ m ∈ mp, 68 ≤ m ∧ m ≤ 65535 ∧ hs + 8 ≤ m)) ∧
      (∀ e, IPv4.validate_fragmentation_inputs ps hs mp = .error e →
        IPv4.firstErrorSound ps hs mp e) :=
  fun ps hs mp =>
    ⟨IPv4.validate_ok_iff ps hs mp, fun e he => IPv4.validate_err_sound ps hs mp e he⟩

/-- Witness for C5 at a concrete rejected input (header not a multiple
of 4). -/
theorem validator_accept_iff_and_first_error_witness :
    IPv4.firstErrorSound 1500 22 [576] .headerNotMultipleOf4 :=
  (validator_accept_iff_and_first_error 1500 22 [576]).2 .headerNotMultipleOf4
    (by decide)

/-- C6: alignment — in every hop of a validated simulation, every
recorded fragment except the last of the hop's list has a data length
that is a multiple of 8 bytes. -/
theorem hop_alignment_except_last :
    ∀ (ps hs : Int) (mp : List Int) (fid : Int),
      IPv4.validate_fragmentation_inputs ps hs mp = .ok () →
      ∃ hl, IPv4.simulate_fragmentation ps hs mp fid = .ok ⟨fid, ps, hs, mp, hl⟩ ∧
        ∀ h ∈ hl, ∀ f ∈ h.fragments.dropLast, f.data_length.fmod 8 = 0 := by
  intro ps hs mp fid hv
  obtain ⟨hl, hsim, hprop⟩ := IPv4.simulate_ok_master ps hs mp fid hv
  exact ⟨hl, hsim, fun h hh => IPv4.alignedButLast_dropLast (hprop h hh).2.1⟩

/-- Witness for C6 at the worked 1500/20/[576] input. -/
theorem hop_alignment_except_last_witness :
    ∃ hl, IPv4.simulate_fragmentation 1500 20 [576] 3 = .ok ⟨3, 1500, 20, [576], hl⟩ ∧
      ∀ h ∈ hl, ∀ f ∈ h.fragments.dropLast, (IPv4.Fragment.data_length f).fmod 8 = 0 :=
  hop_alignment_except_last 1500 20 [576] 3 (by decide)

/-- C7: tiling and offset monotonicity — within every hop of a validated
simulation, consecutive fragments satisfy
`offset_units[i+1] * 8 = offset_units[i] * 8 + data_length[i]` with
strictly increasing offsets (no gaps, no overlaps); and every successful
`fragment_packet` call whose starting offset is 8-byte aligned (the
function's documented precondition) returns fragments that exactly tile
the byte interval `[start_offset, start_offset + data_size)`, expressed by
`chainFrom`. -/
theorem tiling_and_offset_monotonicity :
    (∀ (ps hs : Int) (mp : List Int) (fid : Int),
        IPv4.validate_fragmentation_inputs ps hs mp = .ok () →
        ∃ hl, IPv4.simulate_fragmentation ps hs mp fid = .ok ⟨fid, ps, hs, mp, hl⟩ ∧
          ∀ h ∈ hl, ∀ (i : Nat) (f g : IPv4.Fragment),
            h.fragments.get? i = some f → h.fragments.get? (i + 1) = some g →
            g.offset_units * 8 = f.offset_units * 8 + f.data_length ∧
              f.offset_units < g.offset_units) ∧
    (∀ (ds off hs mtu fid : Int) (l : List IPv4.Fragment), off.fmod 8 = 0 →
        IPv4.fragment_packet ds off hs mtu fid = .ok l →
        IPv4.chainFrom off (off + ds) l) := by
  constructor
  · intro ps hs mp fid hv
    obtain ⟨hl, hsim, hprop⟩ := IPv4.simulate_ok_master ps hs mp fid hv
    exact ⟨hl, hsim, fun h hh => IPv4.chainFrom_adjacent (hprop h hh).1⟩
  · intro ds off hs mtu fid l hoff h
    exact (IPv4.fragment_packet_chain ds off hs mtu fid l hoff h).1

/-- Witness for C7: the worked call tiles `[0, 1480)`. -/
theorem tiling_and_offset_monotonicity_witness :
    IPv4.chainFrom 0 (0 + 1480)
      [⟨9, 552, 0, 1⟩, ⟨9, 552, 69, 2⟩, ⟨9, 376, 138, 3⟩] :=
  tiling_and_offset_monotonicity.2 1480 0 20 576 9
    [⟨9, 552, 0, 1⟩, ⟨9, 552, 69, 2⟩, ⟨9, 376, 138, 3⟩] (by decide) (by decide)

/-- C8: pass-through stability — every incoming fragment of a hop with
`data_length + header_size ≤ mtu` appears in the hop's output with the
same identifier, data length and offset (it is appended unchanged, never
re-fragmented), and a hop whose MTU exceeds every incoming fragment's
total size reproduces its input list unchanged. -/
theorem passthrough_stability :
    ∀ (hs mtu : Int) (l out : List IPv4.Fragment),
      IPv4.hopStep hs mtu l [] = .ok out →
      (∀ f ∈ l, f.data_length + hs ≤ mtu →
        ∃ g ∈ out, g.fragment_id = f.fragment_id ∧
          g.data_length = f.data_length ∧ g.offset_units = f.offset_units) ∧
      ((∀ f ∈ l, f.data_length + hs < mtu) → out = l) := by
  intro hs mtu l out h
  constructor
  · intro f hf hfit
    exact ⟨f, IPv4.hopStep_mem hs mtu l [] out h f hf hfit, rfl, rfl, rfl⟩
  · intro hall
    have hid := IPv4.hopStep_id hs mtu l [] (fun f hf => le_of_lt (hall f hf))
    rw [hid] at h
    injection h with h
    rw [← h]
    simp

/-- Witness for C8 at a concrete no-op hop. -/
theorem passthrough_stability_witness :
    [(⟨2, 100, 4, 9⟩ : IPv4.Fragment)] = [⟨2, 100, 4, 9⟩] :=
  (passthrough_stability 20 1500 [⟨2, 100, 4, 9⟩] [⟨2, 100, 4, 9⟩] (by decide)).2
    (by decide)

/-- C9: worked example — for `packet_size = 1500`, `header_size = 20`,
`mtu_path = [576]` (any fragment identifier) the simulation produces
exactly one hop with exactly three fragments of data lengths
552, 552, 376 at offset units 0, 69, 138 and sequence numbers 1, 2, 3,
whose More-Fragments flags as rendered by the hop table are 1, 1, 0;
`floor((576 - 20) / 8) * 8 = 552`, `552 + 552 + 376 = 1480`. -/
theorem worked_example_1500_20_576 :
    ∀ fid : Int,
      IPv4.simulate_fragmentation 1500 20 [576] fid =
        .ok ⟨fid, 1500, 20, [576],
          [⟨1, 576, [⟨fid, 552, 0, 1⟩, ⟨fid, 552, 69, 2⟩, ⟨fid, 376, 138, 3⟩]⟩]⟩ ∧
      IPv4.mfFlags [⟨fid, 552, 0, 1⟩, ⟨fid, 552, 69, 2⟩, ⟨fid, 376, 138, 3⟩] =
        [true, true, false] ∧
      ((576 - 20 : Int).fdiv 8) * 8 = 552 := by
  intro fid
  exact ⟨rfl, rfl, rfl⟩

/-- C10: guard behavior of `fragment_packet` — a negative `data_size`, a
zero `data_size` and an MTU below `header_size + 8` each fail with their
own distinct error before any fragment is constructed, and such calls
never return a fragment list. -/
theorem fragment_packet_guards :
    ∀ (ds off hs mtu fid : Int),
      (ds < 0 → IPv4.fragment_packet ds off hs mtu fid = .error .negativeDataSize) ∧
      (ds = 0 → IPv4.fragment_packet ds off hs mtu fid = .error .noData) ∧
      (0 < ds → mtu < hs + 8 →
        IPv4.fragment_packet ds off hs mtu fid =
          .error (.mtuTooSmallForMinData mtu hs)) ∧
      (IPv4.FragError.negativeDataSize ≠ IPv4.FragError.noData ∧
        IPv4.FragError.negativeDataSize ≠ .mtuTooSmallForMinData mtu hs ∧
        IPv4.FragError.noData ≠ .mtuTooSmallForMinData mtu hs) ∧
      ((ds < 0 ∨ ds = 0 ∨ mtu < hs + 8) →
        ∀ l, IPv4.fragment_packet ds off hs mtu fid ≠ .ok l) := by
  intro ds off hs mtu fid
  refine ⟨?_, ?_, ?_, ⟨nofun, nofun, nofun⟩, ?_⟩
  · intro h
    unfold IPv4.fragment_packet
    rw [if_pos h]
  · intro h
    unfold IPv4.fragment_packet
    rw [if_neg (by omega), if_pos h]
  · intro h1 h2
    unfold IPv4.fragment_packet
    rw [if_neg (by omega), if_neg (by omega), if_pos h2]
  · intro hcase l hok
    obtain ⟨hds, hmtu, _⟩ := IPv4.fragment_packet_ok_inv ds off hs mtu fid l hok
    omega

/-- Witness for C10 at a concrete negative data size. -/
theorem fragment_packet_guards_witness :
    IPv4.fragment_packet (-1) 0 20 576 1 = .error .negativeDataSize :=
  (fragment_packet_guards (-1) 0 20 576 1).1 (by decide)
